import Mathlib

/-!
Verification of the Request Execution & Variable Substitution Engine of the
fetchman repository.  The definitions below are shallow embeddings of the
TypeScript sources:

* `src/lib/templating/substitution.ts` — placeholder grammar and the
  string/object/request substitution functions;
* `src/lib/security/encryption.ts` — the ciphertext envelope codec, with the
  external AES-256-GCM primitive, UTF-8 codec and base64 codec abstracted as
  parameters (they live in Node's `crypto`/`Buffer`, outside this repository);
* `src/app/api/execute/route.ts` — the outbound-call body policy, the
  substitution error boundary and the response classification chain.

JavaScript `Map.set` / object property assignment update an existing key in
place (keeping its position) and append otherwise; association lists with that
update rule model them.
-/

namespace Fetchman

/-- JS `Map.set` / object assignment: update the entry carrying the key in
place if one exists, otherwise append a fresh entry at the end. -/
def assocSet {α : Type} : List (String × α) → String → α → List (String × α)
  | [], k, v => [(k, v)]
  | (k', v') :: rest, k, v =>
    if k' == k then (k, v) :: rest else (k', v') :: assocSet rest k v

/-- JS `Map.get` / property lookup (`undefined` becomes `none`). -/
def assocGet {α : Type} (m : List (String × α)) (k : String) : Option α :=
  (m.find? (fun p => p.1 == k)).map (·.2)

/-- A decrypted variable table (`Map<string, string>` in the source). -/
abbrev VarTable := List (String × String)

/-! ### Placeholder grammar

`src/lib/templating/substitution.ts` line 10:
`const VARIABLE_PATTERN = /\x7b\x7b\s*([a-zA-Z_][a-zA-Z0-9_]*)\s*\x7d\x7d/g`
-/

/-- The character class `\s` of JavaScript regular expressions. -/
def isJsSpace (c : Char) : Bool :=
  c = ' ' || c = '\t' || c = '\n' || c = '\r' ||
  c.toNat = 11 || c.toNat = 12 || c.toNat = 0xa0 || c.toNat = 0x1680 ||
  (0x2000 ≤ c.toNat && c.toNat ≤ 0x200a) ||
  c.toNat = 0x2028 || c.toNat = 0x2029 || c.toNat = 0x202f ||
  c.toNat = 0x205f || c.toNat = 0x3000 || c.toNat = 0xfeff

/-- The class `[a-zA-Z_]` opening an identifier. -/
def isIdentStart (c : Char) : Bool :=
  ('a' ≤ c && c ≤ 'z') || ('A' ≤ c && c ≤ 'Z') || c = '_'

/-- The class `[a-zA-Z0-9_]` continuing an identifier. -/
def isIdentChar (c : Char) : Bool :=
  isIdentStart c || ('0' ≤ c && c ≤ '9')

/-- Match `VARIABLE_PATTERN` at the head of `cs`.  On success, return the
captured identifier, the full matched token and the remaining input.  Because
`\s`, `[a-zA-Z0-9_]` and `\x7d` are pairwise disjoint character classes, the
regex engine's backtracking never helps, so greedy maximal munch of each
starred class is exact. -/
def matchPlaceholder (cs : List Char) : Option (List Char × List Char × List Char) :=
  match cs with
  | '{' :: '{' :: r0 =>
    match r0.dropWhile isJsSpace with
    | c :: r2 =>
      if isIdentStart c then
        match (r2.dropWhile isIdentChar).dropWhile isJsSpace with
        | '}' :: '}' :: r5 =>
          some (c :: r2.takeWhile isIdentChar,
                '{' :: '{' ::
                  (r0.takeWhile isJsSpace ++
                    (c :: r2.takeWhile isIdentChar) ++
                    (r2.dropWhile isIdentChar).takeWhile isJsSpace ++
                    ['}', '}']),
                r5)
        | _ => none
      else none
    | [] => none
  | _ => none

/-- The scan of `text.replace(VARIABLE_PATTERN, ...)`: at each position try the
pattern; on a match whose identifier is in the table emit the raw value, on a
match whose identifier is absent emit the matched token verbatim, otherwise
emit the character and move on.  `fuel` only bounds recursion depth; the
matched token is never empty, so `fuel = length of the input` suffices. -/
def substCharsAux (vars : VarTable) : Nat → List Char → List Char
  | 0, cs => cs
  | fuel + 1, cs =>
    match cs with
    | [] => []
    | c :: cs' =>
      match matchPlaceholder (c :: cs') with
      | some (name, matched, rest) =>
        match assocGet vars (String.mk name) with
        | some v => v.data ++ substCharsAux vars fuel rest
        | none => matched ++ substCharsAux vars fuel rest
      | none => c :: substCharsAux vars fuel cs'

/-- `substituteVariablesInString` from `src/lib/templating/substitution.ts`
(lines 52–71).  The `!text` guard returns empty input unchanged, which the
scan does as well, so the guard needs no separate case. -/
def substituteVariablesInString (text : String) (vars : VarTable) : String :=
  String.mk (substCharsAux vars text.data.length text.data)

/-! ### Specification-side formulation of the substitution scan

`substituteStringSpec` follows the specification's description of
`substituteString`: scan left to right for the first placeholder token, split
the text around it, replace the token by the table's raw value when the
identifier is present (keep it verbatim otherwise), and continue on the
remainder.  The token grammar itself is shared with the implementation. -/

/-- Leftmost placeholder occurrence: the literal text before the first token,
the token's identifier, the token text, and the remainder after it. -/
def findPlaceholder : List Char → Option (List Char × List Char × List Char × List Char)
  | [] => none
  | c :: cs =>
    match matchPlaceholder (c :: cs) with
    | some (name, matched, rest) => some ([], name, matched, rest)
    | none =>
      match findPlaceholder cs with
      | some (pre, name, matched, rest) => some (c :: pre, name, matched, rest)
      | none => none

/-- One spec-level rewriting pass over character lists. -/
def substSpecAux (vars : VarTable) : Nat → List Char → List Char
  | 0, cs => cs
  | fuel + 1, cs =>
    match findPlaceholder cs with
    | none => cs
    | some (pre, name, matched, rest) =>
      pre ++
        (match assocGet vars (String.mk name) with
         | some v => v.data
         | none => matched) ++
        substSpecAux vars fuel rest

/-- `substituteString` as the specification words it. -/
def substituteStringSpec (text : String) (vars : VarTable) : String :=
  String.mk (substSpecAux vars text.data.length text.data)

/-! ### The claimed grammar with horizontal whitespace only

The specification restricts the whitespace permitted inside the double braces
to horizontal whitespace; the matcher below is that restricted grammar,
used to compare the claimed behaviour with the implemented one. -/

/-- Horizontal whitespace: space and tab (no line separators). -/
def isHorizSpace (c : Char) : Bool :=
  c = ' ' || c = '\t'

/-- The claimed token grammar: `\x7b\x7b`, optional horizontal whitespace, an
identifier, optional horizontal whitespace, `\x7d\x7d`. -/
def matchClaimPlaceholder (cs : List Char) : Option (List Char × List Char × List Char) :=
  match cs with
  | '{' :: '{' :: r0 =>
    match r0.dropWhile isHorizSpace with
    | c :: r2 =>
      if isIdentStart c then
        match (r2.dropWhile isIdentChar).dropWhile isHorizSpace with
        | '}' :: '}' :: r5 =>
          some (c :: r2.takeWhile isIdentChar,
                '{' :: '{' ::
                  (r0.takeWhile isHorizSpace ++
                    (c :: r2.takeWhile isIdentChar) ++
                    (r2.dropWhile isIdentChar).takeWhile isHorizSpace ++
                    ['}', '}']),
                r5)
        | _ => none
      else none
    | [] => none
  | _ => none

/-- Leftmost occurrence of a token of the claimed grammar. -/
def findClaimPlaceholder : List Char → Option (List Char × List Char × List Char × List Char)
  | [] => none
  | c :: cs =>
    match matchClaimPlaceholder (c :: cs) with
    | some (name, matched, rest) => some ([], name, matched, rest)
    | none =>
      match findClaimPlaceholder cs with
      | some (pre, name, matched, rest) => some (c :: pre, name, matched, rest)
      | none => none

/-! ### Cryptographic codec (`src/lib/security/encryption.ts`)

The AES-256-GCM cipher, the UTF-8 codec and the base64 codec are Node
builtins, external to the repository; they enter the embedding as abstract
parameters.  What the repository implements — the three-part colon-joined
envelope, its shape check and the two failure modes — is modelled
concretely. -/

/-- An authenticated symmetric cipher: `enc key iv plaintextBytes` yields
`(ciphertextBytes, authTagBytes)`; `dec key iv ciphertext tag` yields the
plaintext bytes, or `none` when the tag does not verify. -/
structure AEAD (Key : Type) where
  enc : Key → List Nat → List Nat → List Nat × List Nat
  dec : Key → List Nat → List Nat → List Nat → Option (List Nat)

/-- The two failure modes of `decryptValue`: the explicit
`Invalid encrypted payload format` throw, and the throw from
`decipher.final()` when authentication fails. -/
inductive DecryptError : Type where
  | malformed : DecryptError
  | auth : DecryptError
deriving DecidableEq

/-- The codec's environment: the cipher, the derived key, and the byte/string
codecs of Node's `Buffer`. -/
structure CryptoCtx (Key : Type) where
  aead : AEAD Key
  key : Key
  utf8enc : String → List Nat
  utf8dec : List Nat → String
  b64enc : List Nat → String
  b64dec : String → List Nat

/-- JS `Array.prototype.join(sep)`. -/
def joinWith (sep : String) : List String → String
  | [] => ""
  | s :: rest => rest.foldl (fun acc p => acc ++ sep ++ p) s

/-- JS `String.prototype.split(sep)` for a one-character separator, over
character lists. -/
def splitCharsOn (sep : Char) : List Char → List (List Char)
  | [] => [[]]
  | c :: cs =>
    if c = sep then [] :: splitCharsOn sep cs
    else
      match splitCharsOn sep cs with
      | [] => [[c]]
      | h :: t => (c :: h) :: t

/-- JS `String.prototype.split(sep)` for a one-character separator. -/
def splitOnChar (sep : Char) (s : String) : List String :=
  (splitCharsOn sep s.data).map String.mk

/-- `encryptValue` (lines 19–36): encrypt the UTF-8 bytes of the plaintext
under a fresh `iv`, then join the base64 of `(iv, ciphertext, authTag)` with
colons. -/
def encryptValue {K : Type} (ctx : CryptoCtx K) (iv : List Nat) (plaintext : String) : String :=
  let ct := ctx.aead.enc ctx.key iv (ctx.utf8enc plaintext)
  joinWith ":" [ctx.b64enc iv, ctx.b64enc ct.1, ctx.b64enc ct.2]

/-- `decryptValue` (lines 38–54): reject any payload without exactly three
colon-delimited segments, then base64-decode the segments and run the
authenticated decryption, failing when the tag does not verify. -/
def decryptValue {K : Type} (ctx : CryptoCtx K) (payload : String) : Except DecryptError String :=
  match splitOnChar ':' payload with
  | [ivB64, encryptedB64, authTagB64] =>
    match ctx.aead.dec ctx.key (ctx.b64dec ivB64) (ctx.b64dec encryptedB64)
        (ctx.b64dec authTagB64) with
    | some bs => .ok (ctx.utf8dec bs)
    | none => .error .auth
  | _ => .error .malformed

/-! ### Variable resolver (`getVariableMap`, substitution.ts lines 16–39) -/

/-- One stored workspace variable (`IWorkspaceEnvVariable`): the key, the
ciphertext envelope, and the secret flag. -/
structure VariableRecord where
  key : String
  value : String
  isSecret : Bool
deriving DecidableEq

/-- The `WorkspaceEnvironment` document as the resolver reads it; the
database lookup itself is external, so the resolver is modelled over the
fetched document (`none` when `findOne` returns no document).  `varList`
models the document's `variables` array, `none` when that field is unset. -/
structure WorkspaceEnvironment where
  varList : Option (List VariableRecord)
deriving DecidableEq

/-- The resolver's loop: decrypt each record, `Map.set` the successes, skip
the failures. -/
def getVariableMapGo {K : Type} (ctx : CryptoCtx K) : VarTable → List VariableRecord → VarTable
  | acc, [] => acc
  | acc, r :: rest =>
    match decryptValue ctx r.value with
    | .ok v => getVariableMapGo ctx (assocSet acc r.key v) rest
    | .error _ => getVariableMapGo ctx acc rest

/-- `getVariableMap`: empty table when the document is missing or carries no
variable list, otherwise the loop above. -/
def getVariableMap {K : Type} (ctx : CryptoCtx K)
    (environment : Option WorkspaceEnvironment) : VarTable :=
  match environment with
  | some env =>
    match env.varList with
    | some records => getVariableMapGo ctx [] records
    | none => []
  | none => []

/-- Specification-side reading of the resolver: a key resolves to the value
of the last record carrying that key whose ciphertext decrypts
successfully. -/
def resolveSpec {K : Type} (ctx : CryptoCtx K) : List VariableRecord → String → Option String
  | [], _ => none
  | r :: rest, k =>
    match resolveSpec ctx rest k with
    | some v => some v
    | none =>
      if r.key == k then
        match decryptValue ctx r.value with
        | .ok v => some v
        | .error _ => none
      else none

/-! ### JSON-like values and `substituteInObject` (substitution.ts 88–112)

A JS value reaching `substituteInObject` is a string, an array, a non-null
object, or some other scalar (number, boolean, null, ...), which the code
passes through unchanged; `other` carries an opaque tag for those. -/

mutual
inductive JVal : Type where
  | str : String → JVal
  | arr : JList → JVal
  | obj : JEntries → JVal
  | other : Int → JVal
deriving DecidableEq
inductive JList : Type where
  | nil : JList
  | cons : JVal → JList → JList
deriving DecidableEq
inductive JEntries : Type where
  | nil : JEntries
  | cons : String → JVal → JEntries → JEntries
deriving DecidableEq
end

/-- The entries of an object, in iteration order. -/
def JEntries.toList : JEntries → List (String × JVal)
  | .nil => []
  | .cons k v rest => (k, v) :: JEntries.toList rest

/-- JS property assignment `result[key] = value` on an object: overwrite the
value of an existing key in place, append a fresh key at the end. -/
def assocSetE : JEntries → String → JVal → JEntries
  | .nil, k, v => .cons k v .nil
  | .cons k' v' rest, k, v =>
    if k' == k then .cons k v rest else .cons k' v' (assocSetE rest k v)

/-- Property lookup on an object. -/
def entGet : JEntries → String → Option JVal
  | .nil, _ => none
  | .cons k' v rest, k => if k' == k then some v else entGet rest k

/-- Number of entries of an object. -/
def entLength : JEntries → Nat
  | .nil => 0
  | .cons _ _ rest => entLength rest + 1

/-- The keys of an object, in iteration order. -/
def entKeys : JEntries → List String
  | .nil => []
  | .cons k _ rest => k :: entKeys rest

/-- Array elements: strings are substituted, everything else (objects and
nested arrays included) passes through untouched. -/
def substItem (vars : VarTable) : JVal → JVal
  | .str s => .str (substituteVariablesInString s vars)
  | v => v

/-- `value.map(item => typeof item === 'string' ? substitute : item)`. -/
def substJList (vars : VarTable) : JList → JList
  | .nil => .nil
  | .cons v rest => .cons (substItem vars v) (substJList vars rest)

mutual
/-- The per-value case split of the `substituteInObject` loop body: strings
are substituted, arrays element-wise on strings only, nested objects
recursively, anything else unchanged. -/
def substEntryValue (vars : VarTable) : JVal → JVal
  | .str s => .str (substituteVariablesInString s vars)
  | .arr items => .arr (substJList vars items)
  | .obj entries => .obj (substObjGo vars .nil entries)
  | .other n => .other n
/-- The `for (const [key, value] of Object.entries(obj))` loop: substitute
the key and the value, assign into the result object. -/
def substObjGo (vars : VarTable) : JEntries → JEntries → JEntries
  | acc, .nil => acc
  | acc, .cons k v rest =>
    substObjGo vars
      (assocSetE acc (substituteVariablesInString k vars) (substEntryValue vars v)) rest
end

/-- `substituteInObject` (lines 88–112). -/
def substituteInObject (obj : JEntries) (vars : VarTable) : JEntries :=
  substObjGo vars .nil obj

/-! ### `substituteRequest` (substitution.ts lines 115–157) -/

/-- The request shape taken by `substituteRequest`: a URL, optional headers,
an optional body, plus arbitrary further fields that the rewrite carries
over unchanged. -/
structure ExecRequest where
  url : String
  headers : Option JEntries
  body : Option JVal
  extra : List (String × JVal)
deriving DecidableEq

/-- `substituteRequest`: resolve the table; with an empty table return the
request as-is; otherwise substitute the URL, the headers (when present) and
the body (when it is a string). -/
def substituteRequest {K : Type} (ctx : CryptoCtx K)
    (environment : Option WorkspaceEnvironment) (request : ExecRequest) : ExecRequest :=
  let varMap := getVariableMap ctx environment
  if varMap.length = 0 then request
  else
    { request with
      url := substituteVariablesInString request.url varMap
      headers := request.headers.map (fun h => substituteInObject h varMap)
      body :=
        match request.body with
        | some (.str s) => some (.str (substituteVariablesInString s varMap))
        | b => b }

/-! ### The execute route (`src/app/api/execute/route.ts`) -/

/-- The substitution boundary of the route (lines 16–29): with a truthy
`workspaceId`, run the substitution step; if it throws, keep the original
URL, headers and body.  The substitution step (database access included) is
abstracted as a fallible function. -/
def applySubstitution (substFn : ExecRequest → Except String ExecRequest)
    (workspaceId : Option String) (request : ExecRequest) : ExecRequest :=
  match workspaceId with
  | some wid =>
    if wid == "" then request
    else
      match substFn request with
      | .ok substituted => substituted
      | .error _ => request
  | none => request

/-- The options handed to `fetch`. -/
structure FetchOptions where
  method : String
  headers : JEntries
  body : Option String
deriving DecidableEq

/-- JS truthiness of the body value (a missing or empty string is falsy). -/
def isTruthyBody : Option String → Bool
  | some s => !(s == "")
  | none => false

/-- Lines 31–40: build the fetch options with the method and headers
(`headers || \x7b\x7d`), attaching the body only when it is truthy and the
method is in the payload allow-list. -/
def buildFetchOptions (method : String) (headers : Option JEntries)
    (body : Option String) : FetchOptions :=
  let base : FetchOptions := { method := method, headers := headers.getD .nil, body := none }
  if isTruthyBody body && (["POST", "PUT", "PATCH"].contains method) then
    { base with body := body }
  else base

/-! ### Response classification (route.ts lines 56–97) -/

inductive BodyType : Type where
  | json | text | html | image | binary
deriving DecidableEq

inductive BodyEncoding : Type where
  | utf8 | base64
deriving DecidableEq

/-- The `body` field of the response: the parsed JSON value on a successful
parse, otherwise a string (decoded text or base64). -/
inductive RespBody (J : Type) : Type where
  | jsonVal : J → RespBody J
  | str : String → RespBody J
deriving DecidableEq

/-- The classification result. -/
structure EncodedResponse (J : Type) where
  body : RespBody J
  bodyType : BodyType
  encoding : Option BodyEncoding
  bodyText : Option String
deriving DecidableEq

/-- Node's `Buffer.toString('utf8')`, `JSON.parse` (with its failure), and
`Buffer.toString('base64')`, abstracted. -/
structure ResponseCodecs (J : Type) where
  utf8 : List Nat → String
  parseJson : String → Option J
  base64 : List Nat → String

/-- `pat.isPrefixOf l` on characters, written out. -/
def startsWithChars : List Char → List Char → Bool
  | [], _ => true
  | _ :: _, [] => false
  | p :: ps, c :: cs => p == c && startsWithChars ps cs

/-- Substring occurrence on characters. -/
def hasSubstrChars (pat : List Char) : List Char → Bool
  | [] => startsWithChars pat []
  | c :: cs => startsWithChars pat (c :: cs) || hasSubstrChars pat cs

/-- JS `String.prototype.includes`. -/
def strContains (s pat : String) : Bool :=
  hasSubstrChars pat.data s.data

/-- JS `String.prototype.startsWith`. -/
def strStartsWith (s pat : String) : Bool :=
  startsWithChars pat.data s.data

/-- The classification chain of the route: size zero first, then
`application/json` (with parse fallback), `text/html`, `text/*`, `image/*`,
binary; finally the `content-disposition` re-assertion for binary
downloads. -/
def encodeResponse {J : Type} (codecs : ResponseCodecs J) (bytes : List Nat)
    (contentType : String) (contentDisposition : Option String) : EncodedResponse J :=
  let r : EncodedResponse J :=
    if bytes.length = 0 then
      { body := .str "", bodyType := .text, encoding := some .utf8, bodyText := some "" }
    else if strContains contentType "application/json" then
      let text := codecs.utf8 bytes
      match codecs.parseJson text with
      | some j =>
        { body := .jsonVal j, bodyType := .json, encoding := some .utf8, bodyText := some text }
      | none =>
        { body := .str text, bodyType := .text, encoding := some .utf8, bodyText := some text }
    else if strContains contentType "text/html" then
      let text := codecs.utf8 bytes
      { body := .str text, bodyType := .html, encoding := some .utf8, bodyText := some text }
    else if strStartsWith contentType "text/" then
      let text := codecs.utf8 bytes
      { body := .str text, bodyType := .text, encoding := some .utf8, bodyText := some text }
    else if strStartsWith contentType "image/" then
      { body := .str (codecs.base64 bytes), bodyType := .image,
        encoding := some .base64, bodyText := none }
    else
      { body := .str (codecs.base64 bytes), bodyType := .binary,
        encoding := some .base64, bodyText := none }
  if r.bodyType == .binary &&
      (match contentDisposition with
       | some cd => strContains cd "filename"
       | none => false) then
    { r with encoding := some .base64 }
  else r

/-- Specification-side reading of the object rewrite at one key of the
result: the substituted value of the last input entry whose substituted key
equals `s` (later entries in iteration order win). -/
def lastHit (vars : VarTable) (s : String) : List (String × JVal) → Option JVal
  | [] => none
  | q :: rest =>
    match lastHit vars s rest with
    | some w => some w
    | none =>
      if substituteVariablesInString q.1 vars == s then
        some (substEntryValue vars q.2)
      else none

/-! ### Concrete stand-ins for the abstract external primitives -/

/-- A stand-in cipher for evaluating the envelope codec on concrete inputs:
ciphertext equals the plaintext bytes and the tag is the fixed byte `7`,
which decryption checks. -/
def demoAead : AEAD Unit where
  enc := fun _ _ pt => (pt, [7])
  dec := fun _ _ ct tag => if tag = [7] then some ct else none

/-- A concrete codec environment: byte lists and strings are identified
character-by-character. -/
def demoCtx : CryptoCtx Unit where
  aead := demoAead
  key := ()
  utf8enc := fun s => s.data.map Char.toNat
  utf8dec := fun bs => String.mk (bs.map Char.ofNat)
  b64enc := fun bs => String.mk (bs.map Char.ofNat)
  b64dec := fun s => s.data.map Char.toNat

/-- A concrete request for evaluating the orchestration functions. -/
def demoRequest : ExecRequest where
  url := "https://example.test/{{a}}"
  headers := some (.cons "Accept" (.str "{{a}}") .nil)
  body := some (.str "{{a}}")
  extra := [("method", .str "GET")]

/-- Concrete response codecs whose JSON parser always fails. -/
def demoRespCodecs : ResponseCodecs Unit where
  utf8 := fun bs => String.mk (bs.map Char.ofNat)
  parseJson := fun _ => none
  base64 := fun bs => String.mk (bs.map Char.ofNat)

/-! ### The implementation scan agrees with the spec-level scan -/

theorem substCharsAux_nil (vars : VarTable) (f : Nat) : substCharsAux vars f [] = [] := by
  cases f <;> rfl

theorem substSpecAux_nil (vars : VarTable) (f : Nat) : substSpecAux vars f [] = [] := by
  cases f <;> simp [substSpecAux, findPlaceholder]

theorem matchPlaceholder_parts {cs n m r : List Char}
    (h : matchPlaceholder cs = some (n, m, r)) :
    m ++ r = cs ∧ r.length < cs.length := by
  unfold matchPlaceholder at h
  split at h
  · rename_i r0
    split at h
    · rename_i c r2 hdrop
      split at h
      · split at h
        · rename_i r5 hdrop2
          simp only [Option.some.injEq, Prod.mk.injEq] at h
          obtain ⟨hn, hm, hr⟩ := h
          subst hm hr
          have e1 : r0.takeWhile isJsSpace ++ (c :: r2) = r0 := by
            rw [← hdrop]; exact List.takeWhile_append_dropWhile isJsSpace r0
          have e2 : r2.takeWhile isIdentChar ++ r2.dropWhile isIdentChar = r2 :=
            List.takeWhile_append_dropWhile isIdentChar r2
          have e3 : (r2.dropWhile isIdentChar).takeWhile isJsSpace ++
              ('}' :: '}' :: r5) = r2.dropWhile isIdentChar := by
            rw [← hdrop2]
            exact List.takeWhile_append_dropWhile isJsSpace (r2.dropWhile isIdentChar)
          have key : (r0.takeWhile isJsSpace ++
              (c :: r2.takeWhile isIdentChar) ++
              (r2.dropWhile isIdentChar).takeWhile isJsSpace ++
              ['}', '}']) ++ r5 = r0 := by
            calc (r0.takeWhile isJsSpace ++
                  (c :: r2.takeWhile isIdentChar) ++
                  (r2.dropWhile isIdentChar).takeWhile isJsSpace ++
                  ['}', '}']) ++ r5
                = r0.takeWhile isJsSpace ++
                  (c :: (r2.takeWhile isIdentChar ++
                    ((r2.dropWhile isIdentChar).takeWhile isJsSpace ++
                      ('}' :: '}' :: r5)))) := by
                  simp [List.append_assoc]
              _ = r0.takeWhile isJsSpace ++
                  (c :: (r2.takeWhile isIdentChar ++ r2.dropWhile isIdentChar)) := by
                  rw [e3]
              _ = r0.takeWhile isJsSpace ++ (c :: r2) := by rw [e2]
              _ = r0 := e1
          constructor
          · simp only [List.cons_append]
            rw [key]
          · have hlen := congrArg List.length key
            simp only [List.length_append, List.length_cons] at hlen ⊢
            omega
        · exact absurd h (by simp)
      · exact absurd h (by simp)
    · exact absurd h (by simp)
  · exact absurd h (by simp)

theorem findPlaceholder_parts {cs p n m r : List Char}
    (h : findPlaceholder cs = some (p, n, m, r)) :
    p ++ m ++ r = cs ∧ r.length < cs.length := by
  induction cs generalizing p with
  | nil => simp [findPlaceholder] at h
  | cons c cs ih =>
    unfold findPlaceholder at h
    split at h
    · rename_i name matched rest hmp
      simp only [Option.some.injEq, Prod.mk.injEq] at h
      obtain ⟨hp, hn, hm, hr⟩ := h
      subst hp hn hm hr
      have := matchPlaceholder_parts hmp
      simpa using this
    · rename_i hmp
      split at h
      · rename_i pre name matched rest hfp
        simp only [Option.some.injEq, Prod.mk.injEq] at h
        obtain ⟨hp, hn, hm, hr⟩ := h
        subst hp hn hm hr
        obtain ⟨h1, h2⟩ := ih hfp
        constructor
        · simp [← h1]
        · simp only [List.length_cons]
          omega
      · exact absurd h (by simp)

theorem findPlaceholder_none_spec (vars : VarTable) {cs : List Char}
    (h : findPlaceholder cs = none) (f : Nat) : substSpecAux vars f cs = cs := by
  cases f with
  | zero => rfl
  | succ g => simp [substSpecAux, h]

theorem substSpecAux_congr (vars : VarTable) :
    ∀ f f' cs, cs.length ≤ f → cs.length ≤ f' →
      substSpecAux vars f cs = substSpecAux vars f' cs := by
  intro f
  induction f with
  | zero =>
    intro f' cs hf _
    have : cs = [] := List.length_eq_zero.mp (Nat.le_zero.mp hf)
    subst this
    rw [substSpecAux_nil, substSpecAux_nil]
  | succ g ih =>
    intro f' cs hf hf'
    cases hfp : findPlaceholder cs with
    | none => rw [findPlaceholder_none_spec vars hfp, findPlaceholder_none_spec vars hfp]
    | some t =>
      obtain ⟨p, n, m, r⟩ := t
      have hcs : cs ≠ [] := by
        intro e; rw [e] at hfp; simp [findPlaceholder] at hfp
      cases f' with
      | zero =>
        exfalso
        have : cs = [] := List.length_eq_zero.mp (Nat.le_zero.mp hf')
        exact hcs this
      | succ g' =>
        have hr := (findPlaceholder_parts hfp).2
        conv_lhs => rw [substSpecAux]
        conv_rhs => rw [substSpecAux]
        simp only [hfp]
        rw [ih g' r (by omega) (by omega)]

theorem substCharsAux_eq_spec (vars : VarTable) :
    ∀ f cs, cs.length ≤ f → substCharsAux vars f cs = substSpecAux vars f cs := by
  intro f
  induction f with
  | zero =>
    intro cs hf
    have : cs = [] := List.length_eq_zero.mp (Nat.le_zero.mp hf)
    subst this
    rw [substCharsAux_nil, substSpecAux_nil]
  | succ g ih =>
    intro cs hlen
    cases cs with
    | nil => rw [substCharsAux_nil, substSpecAux_nil]
    | cons c cs' =>
      simp only [List.length_cons] at hlen
      cases hmp : matchPlaceholder (c :: cs') with
      | some t =>
        obtain ⟨n, m, r⟩ := t
        have hfp : findPlaceholder (c :: cs') = some ([], n, m, r) := by
          unfold findPlaceholder; rw [hmp]
        have hr : r.length ≤ g := by
          have := (matchPlaceholder_parts hmp).2
          simp only [List.length_cons] at this
          omega
        simp only [substCharsAux, substSpecAux, hmp, hfp]
        rw [ih r hr]
        cases hget : assocGet vars (String.mk n) with
        | some v => simp [hget]
        | none => simp [hget]
      | none =>
        have hcs' : cs'.length ≤ g := by omega
        simp only [substCharsAux, hmp]
        rw [ih cs' hcs']
        cases hfp' : findPlaceholder cs' with
        | none =>
          have hfp : findPlaceholder (c :: cs') = none := by
            unfold findPlaceholder; rw [hmp, hfp']
          rw [findPlaceholder_none_spec vars hfp', findPlaceholder_none_spec vars hfp]
        | some t =>
          obtain ⟨p, n, m, r⟩ := t
          have hfp : findPlaceholder (c :: cs') = some (c :: p, n, m, r) := by
            unfold findPlaceholder; rw [hmp, hfp']
          have hne : cs' ≠ [] := by
            intro e; rw [e] at hfp'; simp [findPlaceholder] at hfp'
          obtain ⟨g', rfl⟩ : ∃ k, g = k + 1 := by
            cases g with
            | zero =>
              exfalso
              exact hne (List.length_eq_zero.mp (Nat.le_zero.mp hcs'))
            | succ k => exact ⟨k, rfl⟩
          have hrlen : r.length < cs'.length := (findPlaceholder_parts hfp').2
          conv_lhs => rw [substSpecAux]
          conv_rhs => rw [substSpecAux]
          simp only [hfp', hfp]
          rw [substSpecAux_congr vars (g' + 1) g' r (by omega) (by omega)]
          simp [List.append_assoc]

/-- The implemented substitution equals the spec-level one on every input. -/
theorem substituteVariablesInString_eq_spec (text : String) (vars : VarTable) :
    substituteVariablesInString text vars = substituteStringSpec text vars := by
  unfold substituteVariablesInString substituteStringSpec
  rw [substCharsAux_eq_spec vars text.data.length text.data (Nat.le_refl _)]

/-! ### Claim C1 -/

/-- C1 counterexample: the text consisting of double braces enclosing a
newline, the identifier `a` and another newline contains no token of the
claimed horizontal-whitespace grammar, so the claim as stated predicts the
text is preserved verbatim even with `a` in the table; the implementation
substitutes it to `"v"`. -/
theorem substituteString_horizontal_grammar_counterexample :
    findClaimPlaceholder "\x7b\x7b\na\n\x7d\x7d".data = none ∧
    substituteVariablesInString "\x7b\x7b\na\n\x7d\x7d" [("a", "v")] = "v" ∧
    "v" ≠ "\x7b\x7b\na\n\x7d\x7d" :=
  ⟨by decide, by decide, by decide⟩

/-- C1 (amended): `substituteVariablesInString` replaces each non-overlapping
placeholder, scanning left to right, whose identifier is present in the table
by the table's raw value and leaves the token verbatim when the identifier is
absent or the token does not match the grammar — where the grammar permits
arbitrary JavaScript whitespace (line breaks included, not only horizontal
whitespace) inside the braces; concretely the four quoted evaluations hold. -/
theorem substituteString_correct :
    (∀ (text : String) (vars : VarTable),
      substituteVariablesInString text vars = substituteStringSpec text vars) ∧
    substituteVariablesInString "{{a}}/{{b}}" [("a", "x"), ("b", "y")] = "x/y" ∧
    substituteVariablesInString "{{ spaced }}" [("spaced", "v")] = "v" ∧
    substituteVariablesInString "{{missing}}" [] = "{{missing}}" ∧
    substituteVariablesInString "{{1bad}}" [] = "{{1bad}}" :=
  ⟨substituteVariablesInString_eq_spec, by decide, by decide, by decide, by decide⟩

/-! ### Claims C6 and C9 -/

theorem buildFetchOptions_body (method : String) (headers : Option JEntries)
    (body : Option String) :
    (buildFetchOptions method headers body).body =
      if (isTruthyBody body && (["POST", "PUT", "PATCH"] : List String).contains method) = true
      then body else none := by
  by_cases h :
      (isTruthyBody body && (["POST", "PUT", "PATCH"] : List String).contains method) = true
  · rw [if_pos h]
    simp only [buildFetchOptions]
    rw [if_pos h]
  · rw [if_neg h]
    simp only [buildFetchOptions]
    rw [if_neg h]

/-- C6: the outbound call carries the request body only for the allow-listed
methods POST, PUT and PATCH; for any other method the body is dropped even
when non-empty, and for an allow-listed method a non-empty body is forwarded
unchanged. -/
theorem buildFetchOptions_method_policy (method : String) (headers : Option JEntries)
    (body : Option String) :
    (method ∉ (["POST", "PUT", "PATCH"] : List String) →
      (buildFetchOptions method headers body).body = none) ∧
    (∀ s, method ∈ (["POST", "PUT", "PATCH"] : List String) → body = some s → s ≠ "" →
      (buildFetchOptions method headers body).body = some s) := by
  constructor
  · intro hnot
    have hcon : (["POST", "PUT", "PATCH"] : List String).contains method = false := by
      simpa using hnot
    have hfalse :
        (isTruthyBody body && (["POST", "PUT", "PATCH"] : List String).contains method) =
          false := by
      rw [hcon, Bool.and_false]
    rw [buildFetchOptions_body, hfalse]
    simp
  · intro s hmem hbody hne
    subst hbody
    have hcon : (["POST", "PUT", "PATCH"] : List String).contains method = true := by
      simpa using hmem
    have htr : isTruthyBody (some s) = true := by
      simp [isTruthyBody, hne]
    have htrue :
        (isTruthyBody (some s) && (["POST", "PUT", "PATCH"] : List String).contains method) =
          true := by
      rw [hcon, htr, Bool.and_self]
    rw [buildFetchOptions_body, htrue]
    simp

/-- C6 witness: a GET with a non-empty body is sent without a payload; a POST
with the same body forwards it unchanged. -/
theorem buildFetchOptions_method_policy_witness :
    (buildFetchOptions "GET" none (some "x")).body = none ∧
    (buildFetchOptions "POST" none (some "x")).body = some "x" :=
  ⟨(buildFetchOptions_method_policy "GET" none (some "x")).1 (by decide),
   (buildFetchOptions_method_policy "POST" none (some "x")).2 "x" (by decide) rfl
     (by decide)⟩

/-- C9: an empty-string body is falsy, so even a payload-bearing method sends
no payload for it; in general the outbound call carries a body exactly when
the supplied body is a non-empty string and the method is allow-listed. -/
theorem buildFetchOptions_empty_body (method : String) (headers : Option JEntries)
    (body : Option String) :
    ((buildFetchOptions method headers (some "")).body = none) ∧
    ((buildFetchOptions method headers body).body ≠ none →
      ∃ s, body = some s ∧ s ≠ "" ∧
        method ∈ (["POST", "PUT", "PATCH"] : List String) ∧
        (buildFetchOptions method headers body).body = some s) := by
  constructor
  · rw [buildFetchOptions_body]
    simp [isTruthyBody]
  · intro hne
    rw [buildFetchOptions_body] at hne
    by_cases hc :
        (isTruthyBody body && (["POST", "PUT", "PATCH"] : List String).contains method) = true
    · rw [if_pos hc] at hne
      obtain ⟨ht, hm⟩ := Bool.and_eq_true_iff.mp hc
      match body, ht, hne with
      | some s, ht, _ =>
        refine ⟨s, rfl, ?_, ?_, ?_⟩
        · intro he
          subst he
          simp [isTruthyBody] at ht
        · simpa using hm
        · rw [buildFetchOptions_body, if_pos hc]
    · rw [if_neg hc] at hne
      exact absurd rfl hne

/-- C9 witness: a POST whose body is the empty string carries no payload,
and a POST with body `"x"` carries it. -/
theorem buildFetchOptions_empty_body_witness :
    (buildFetchOptions "POST" none (some "")).body = none ∧
    ∃ s, (some "x" : Option String) = some s ∧ s ≠ "" ∧
      "POST" ∈ (["POST", "PUT", "PATCH"] : List String) ∧
      (buildFetchOptions "POST" none (some "x")).body = some s :=
  ⟨(buildFetchOptions_empty_body "POST" none (some "x")).1,
   (buildFetchOptions_empty_body "POST" none (some "x")).2 (by decide)⟩

/-! ### Claims C3 and C4 -/

theorem splitCharsOn_of_not_mem {sep : Char} {l : List Char} (h : sep ∉ l) :
    splitCharsOn sep l = [l] := by
  induction l with
  | nil => rfl
  | cons c cs ih =>
    have hc : ¬(c = sep) := by
      intro e
      exact h (by simp [e])
    have hcs : sep ∉ cs := fun hm => h (List.mem_cons_of_mem _ hm)
    simp [splitCharsOn, hc, ih hcs]

theorem splitCharsOn_append {sep : Char} {a rest : List Char} (h : sep ∉ a) :
    splitCharsOn sep (a ++ sep :: rest) = a :: splitCharsOn sep rest := by
  induction a with
  | nil => simp [splitCharsOn]
  | cons c cs ih =>
    have hc : ¬(c = sep) := by
      intro e
      exact h (by simp [e])
    have hcs : sep ∉ cs := fun hm => h (List.mem_cons_of_mem _ hm)
    simp [splitCharsOn, hc, ih hcs]

/-- Splitting a colon-joined triple of colon-free segments recovers the
segments. -/
theorem splitOnChar_three {a b c : String}
    (ha : (':' : Char) ∉ a.data) (hb : (':' : Char) ∉ b.data)
    (hc : (':' : Char) ∉ c.data) :
    splitOnChar ':' (joinWith ":" [a, b, c]) = [a, b, c] := by
  have hjoin : joinWith ":" [a, b, c] = a ++ ":" ++ b ++ ":" ++ c := rfl
  have hdata : (joinWith ":" [a, b, c]).data =
      a.data ++ ':' :: (b.data ++ ':' :: c.data) := by
    rw [hjoin]
    simp [String.data_append]
  unfold splitOnChar
  rw [hdata, splitCharsOn_append ha, splitCharsOn_append hb, splitCharsOn_of_not_mem hc]
  rfl

/-- C3: decrypting the envelope just produced by `encryptValue` under the
same key returns the plaintext exactly, given that the abstract external
primitives meet their contracts at the values involved: base64 output is
colon-free and decodes back, the cipher decrypts what it encrypted, and the
UTF-8 codec round-trips the plaintext. -/
theorem decryptValue_encryptValue {K : Type} (ctx : CryptoCtx K) (iv : List Nat) (x : String)
    (hcol_iv : (':' : Char) ∉ (ctx.b64enc iv).data)
    (hcol_ct :
      (':' : Char) ∉ (ctx.b64enc (ctx.aead.enc ctx.key iv (ctx.utf8enc x)).1).data)
    (hcol_tag :
      (':' : Char) ∉ (ctx.b64enc (ctx.aead.enc ctx.key iv (ctx.utf8enc x)).2).data)
    (hrt_iv : ctx.b64dec (ctx.b64enc iv) = iv)
    (hrt_ct : ctx.b64dec (ctx.b64enc (ctx.aead.enc ctx.key iv (ctx.utf8enc x)).1) =
      (ctx.aead.enc ctx.key iv (ctx.utf8enc x)).1)
    (hrt_tag : ctx.b64dec (ctx.b64enc (ctx.aead.enc ctx.key iv (ctx.utf8enc x)).2) =
      (ctx.aead.enc ctx.key iv (ctx.utf8enc x)).2)
    (haead : ctx.aead.dec ctx.key iv (ctx.aead.enc ctx.key iv (ctx.utf8enc x)).1
      (ctx.aead.enc ctx.key iv (ctx.utf8enc x)).2 = some (ctx.utf8enc x))
    (hutf8 : ctx.utf8dec (ctx.utf8enc x) = x) :
    decryptValue ctx (encryptValue ctx iv x) = .ok x := by
  simp only [encryptValue, decryptValue]
  rw [splitOnChar_three hcol_iv hcol_ct hcol_tag]
  simp only [hrt_iv, hrt_ct, hrt_tag, haead, hutf8]

/-- C3 witness: the concrete stand-in context round-trips `"hi"` under the
one-byte IV `65`. -/
theorem decryptValue_encryptValue_witness :
    decryptValue demoCtx (encryptValue demoCtx [65] "hi") = .ok "hi" :=
  decryptValue_encryptValue demoCtx [65] "hi" (by decide) (by decide) (by decide)
    (by decide) (by decide) (by decide) (by decide) (by decide)

/-- C4: `decryptValue` reports a malformed payload exactly when the input
does not split into three colon-delimited segments; on a well-shaped
envelope whose tag fails authentication it reports an authentication error;
and it only returns a plaintext that the cipher authenticated. -/
theorem decryptValue_failure_modes {K : Type} (ctx : CryptoCtx K) (payload : String) :
    (decryptValue ctx payload = .error .malformed ↔
      (splitOnChar ':' payload).length ≠ 3) ∧
    (∀ p1 p2 p3, splitOnChar ':' payload = [p1, p2, p3] →
      ctx.aead.dec ctx.key (ctx.b64dec p1) (ctx.b64dec p2) (ctx.b64dec p3) = none →
      decryptValue ctx payload = .error .auth) ∧
    (∀ s, decryptValue ctx payload = .ok s →
      ∃ p1 p2 p3 bs, splitOnChar ':' payload = [p1, p2, p3] ∧
        ctx.aead.dec ctx.key (ctx.b64dec p1) (ctx.b64dec p2) (ctx.b64dec p3) = some bs ∧
        s = ctx.utf8dec bs) := by
  cases h1 : splitOnChar ':' payload with
  | nil => simp [decryptValue, h1]
  | cons p1 t1 =>
    cases t1 with
    | nil => simp [decryptValue, h1]
    | cons p2 t2 =>
      cases t2 with
      | nil => simp [decryptValue, h1]
      | cons p3 t3 =>
        cases t3 with
        | nil =>
          cases hdec : ctx.aead.dec ctx.key (ctx.b64dec p1) (ctx.b64dec p2)
              (ctx.b64dec p3) with
          | some bs =>
            refine ⟨by simp [decryptValue, h1, hdec], ?_, ?_⟩
            · intro q1 q2 q3 heq hdec'
              injection heq with e1 heq2
              injection heq2 with e2 heq3
              injection heq3 with e3 _
              subst e1
              subst e2
              subst e3
              rw [hdec] at hdec'
              exact Option.noConfusion hdec'
            · intro s hs
              simp only [decryptValue, h1, hdec] at hs
              exact ⟨p1, p2, p3, bs, rfl, hdec, by
                simpa using hs.symm⟩
          | none =>
            refine ⟨by simp [decryptValue, h1, hdec], ?_, ?_⟩
            · intro _ _ _ _ _
              simp [decryptValue, h1, hdec]
            · intro s hs
              simp [decryptValue, h1, hdec] at hs
        | cons p4 t4 => simp [decryptValue, h1]

/-- C4 witness: a one-segment payload is malformed; a three-segment payload
whose tag byte is wrong fails authentication. -/
theorem decryptValue_failure_modes_witness :
    decryptValue demoCtx "ab" = .error .malformed ∧
    decryptValue demoCtx "a:b:c" = .error .auth :=
  ⟨(decryptValue_failure_modes demoCtx "ab").1.mpr (by decide),
   (decryptValue_failure_modes demoCtx "a:b:c").2.1 "a" "b" "c" (by decide) (by decide)⟩

/-! ### Claim C5 -/

theorem assocGet_cons {α : Type} (k0 : String) (v0 : α) (rest : List (String × α))
    (k : String) :
    assocGet ((k0, v0) :: rest) k = if k0 == k then some v0 else assocGet rest k := by
  cases h : k0 == k <;> simp [assocGet, List.find?, h]

theorem assocGet_assocSet {α : Type} (m : List (String × α)) (k k' : String) (v : α) :
    assocGet (assocSet m k v) k' = if k == k' then some v else assocGet m k' := by
  induction m with
  | nil => cases h : k == k' <;> simp [assocSet, assocGet_cons, assocGet, h]
  | cons p rest ih =>
    obtain ⟨k0, v0⟩ := p
    cases h0 : k0 == k with
    | true =>
      have e0 : k0 = k := by simpa using h0
      subst e0
      cases h1 : k0 == k' <;> simp [assocSet, assocGet_cons, h1]
    | false =>
      have hne0 : k0 ≠ k := by simpa using h0
      by_cases h2 : k = k'
      · subst h2
        simp [assocSet, h0, assocGet_cons, ih]
      · have h2' : (k == k') = false := by simpa using h2
        cases h1 : k0 == k' <;> simp [assocSet, h0, assocGet_cons, h1, ih, h2']

theorem getVariableMapGo_get {K : Type} (ctx : CryptoCtx K) (records : List VariableRecord) :
    ∀ (acc : VarTable) (k : String),
      assocGet (getVariableMapGo ctx acc records) k =
        match resolveSpec ctx records k with
        | some v => some v
        | none => assocGet acc k := by
  induction records with
  | nil =>
    intro acc k
    simp [getVariableMapGo, resolveSpec]
  | cons r rest ih =>
    intro acc k
    cases hdec : decryptValue ctx r.value with
    | ok v =>
      simp only [getVariableMapGo, hdec, resolveSpec]
      rw [ih]
      cases hrs : resolveSpec ctx rest k with
      | none =>
        simp only [hrs, assocGet_assocSet]
        cases h : r.key == k <;> simp [h]
      | some w => simp [hrs]
    | error e =>
      simp only [getVariableMapGo, hdec, resolveSpec]
      rw [ih]
      cases hrs : resolveSpec ctx rest k with
      | none => simp [hrs]
      | some w => simp [hrs]

/-- C5: the resolver is total (a corrupt record cannot abort it), returns the
empty table when no environment document, no variable list or no records
exist, and otherwise a key looks up to the decryption of the last record
carrying that key whose ciphertext decrypts successfully — entries whose
decryption fails are omitted while the rest are kept. -/
theorem getVariableMap_resolves {K : Type} (ctx : CryptoCtx K) :
    (getVariableMap ctx none = []) ∧
    (getVariableMap ctx (some ⟨none⟩) = []) ∧
    (getVariableMap ctx (some ⟨some []⟩) = []) ∧
    (∀ (records : List VariableRecord) (k : String),
      assocGet (getVariableMap ctx (some ⟨some records⟩)) k = resolveSpec ctx records k) := by
  refine ⟨rfl, rfl, rfl, ?_⟩
  intro records k
  show assocGet (getVariableMapGo ctx [] records) k = _
  rw [getVariableMapGo_get]
  cases hrs : resolveSpec ctx records k <;> simp [assocGet]

/-! ### Claim C7 -/

/-- C7: when the substitution step fails, the execute route swallows the
error and proceeds with the original request unchanged. -/
theorem applySubstitution_error_fallback
    (substFn : ExecRequest → Except String ExecRequest) (wid : String)
    (request : ExecRequest) (e : String) (hwid : wid ≠ "")
    (herr : substFn request = .error e) :
    applySubstitution substFn (some wid) request = request := by
  unfold applySubstitution
  have : (wid == "") = false := by simpa using hwid
  simp [this, herr]

/-- C7 witness: with an always-failing substitution step the request is
passed through unchanged. -/
theorem applySubstitution_error_fallback_witness :
    applySubstitution (fun _ => .error "boom") (some "w") demoRequest = demoRequest :=
  applySubstitution_error_fallback (fun _ => .error "boom") "w" demoRequest "boom"
    (by decide) rfl

/-! ### Claim C2 -/

/-- C2: the response encoder classifies in priority order: a zero-length
body is empty text; otherwise a content-type containing `application/json`
decodes to text and parses, yielding `json` with the parsed value and the
text as `bodyText` on success and falling back to `text` on parse failure;
otherwise containing `text/html` yields `html`; otherwise starting with
`text/` yields `text`; otherwise starting with `image/` yields base64
`image`; anything else yields base64 `binary`. -/
theorem encodeResponse_classification {J : Type} (codecs : ResponseCodecs J)
    (bytes : List Nat) (ct : String) (cd : Option String) :
    (bytes.length = 0 →
      encodeResponse codecs bytes ct cd =
        ⟨.str "", .text, some .utf8, some ""⟩) ∧
    (bytes.length ≠ 0 → strContains ct "application/json" = true →
      ((∀ j, codecs.parseJson (codecs.utf8 bytes) = some j →
        encodeResponse codecs bytes ct cd =
          ⟨.jsonVal j, .json, some .utf8, some (codecs.utf8 bytes)⟩) ∧
       (codecs.parseJson (codecs.utf8 bytes) = none →
        encodeResponse codecs bytes ct cd =
          ⟨.str (codecs.utf8 bytes), .text, some .utf8, some (codecs.utf8 bytes)⟩))) ∧
    (bytes.length ≠ 0 → strContains ct "application/json" = false →
      strContains ct "text/html" = true →
      encodeResponse codecs bytes ct cd =
        ⟨.str (codecs.utf8 bytes), .html, some .utf8, some (codecs.utf8 bytes)⟩) ∧
    (bytes.length ≠ 0 → strContains ct "application/json" = false →
      strContains ct "text/html" = false → strStartsWith ct "text/" = true →
      encodeResponse codecs bytes ct cd =
        ⟨.str (codecs.utf8 bytes), .text, some .utf8, some (codecs.utf8 bytes)⟩) ∧
    (bytes.length ≠ 0 → strContains ct "application/json" = false →
      strContains ct "text/html" = false → strStartsWith ct "text/" = false →
      strStartsWith ct "image/" = true →
      encodeResponse codecs bytes ct cd =
        ⟨.str (codecs.base64 bytes), .image, some .base64, none⟩) ∧
    (bytes.length ≠ 0 → strContains ct "application/json" = false →
      strContains ct "text/html" = false → strStartsWith ct "text/" = false →
      strStartsWith ct "image/" = false →
      encodeResponse codecs bytes ct cd =
        ⟨.str (codecs.base64 bytes), .binary, some .base64, none⟩) := by
  refine ⟨?_, ?_, ?_, ?_, ?_, ?_⟩
  · intro h0
    simp [encodeResponse, h0]
  · intro h0 hj
    constructor
    · intro j hp
      simp [encodeResponse, h0, hj, hp]
    · intro hp
      simp [encodeResponse, h0, hj, hp]
  · intro h0 hj hh
    simp [encodeResponse, h0, hj, hh]
  · intro h0 hj hh ht
    simp [encodeResponse, h0, hj, hh, ht]
  · intro h0 hj hh ht hi
    simp [encodeResponse, h0, hj, hh, ht, hi]
  · intro h0 hj hh ht hi
    cases cd with
    | none => simp [encodeResponse, h0, hj, hh, ht, hi]
    | some cdv =>
      cases hf : strContains cdv "filename" <;>
        simp [encodeResponse, h0, hj, hh, ht, hi, hf]

/-- C2 witness: an empty body is empty text for any content-type, and a
non-empty `application/json` body that fails to parse falls back to text. -/
theorem encodeResponse_classification_witness :
    encodeResponse demoRespCodecs [] "application/octet-stream" none =
      ⟨.str "", .text, some .utf8, some ""⟩ ∧
    encodeResponse demoRespCodecs [104] "application/json" none =
      ⟨.str "h", .text, some .utf8, some "h"⟩ :=
  ⟨(encodeResponse_classification demoRespCodecs [] "application/octet-stream" none).1 rfl,
   ((encodeResponse_classification demoRespCodecs [104] "application/json" none).2.1
      (by decide) (by decide)).2 rfl⟩

/-! ### Claim C8 -/

/-- C8: when the resolved variable table is empty, `substituteRequest`
returns its input request unchanged in every field. -/
theorem substituteRequest_empty_table {K : Type} (ctx : CryptoCtx K)
    (environment : Option WorkspaceEnvironment) (request : ExecRequest)
    (h : getVariableMap ctx environment = []) :
    substituteRequest ctx environment request = request := by
  unfold substituteRequest
  simp [h]

/-- C8 witness: with no workspace environment the request comes back
unchanged. -/
theorem substituteRequest_empty_table_witness :
    substituteRequest demoCtx none demoRequest = demoRequest :=
  substituteRequest_empty_table demoCtx none demoRequest rfl

/-! ### Claim C10 -/

theorem entGet_assocSetE : ∀ (e : JEntries) (k k' : String) (v : JVal),
    entGet (assocSetE e k v) k' = if k == k' then some v else entGet e k'
  | .nil, k, k', v => by cases h : k == k' <;> simp [assocSetE, entGet, h]
  | .cons k0 v0 rest, k, k', v => by
    have ih := entGet_assocSetE rest k k' v
    cases h0 : k0 == k with
    | true =>
      have e0 : k0 = k := by simpa using h0
      subst e0
      cases h1 : k0 == k' <;> simp [assocSetE, entGet, h1]
    | false =>
      have hne0 : k0 ≠ k := by simpa using h0
      by_cases h2 : k = k'
      · subst h2
        simp [assocSetE, h0, entGet, ih]
      · have h2' : (k == k') = false := by simpa using h2
        cases h1 : k0 == k' <;> simp [assocSetE, h0, entGet, h1, ih, h2']

theorem mem_entKeys_assocSetE : ∀ (e : JEntries) (k : String) (v : JVal) (x : String),
    x ∈ entKeys (assocSetE e k v) → x = k ∨ x ∈ entKeys e
  | .nil, k, v, x => by
    intro hx
    simp [assocSetE, entKeys] at hx
    exact Or.inl hx
  | .cons k0 v0 rest, k, v, x => by
    have ih := mem_entKeys_assocSetE rest k v x
    cases h0 : k0 == k with
    | true =>
      intro hx
      simp only [assocSetE, h0, if_true, entKeys, List.mem_cons] at hx
      rcases hx with h | h
      · exact Or.inl h
      · exact Or.inr (by simp [entKeys, h])
    | false =>
      intro hx
      simp only [assocSetE, h0, Bool.false_eq_true, if_false, entKeys,
        List.mem_cons] at hx
      rcases hx with h | h
      · exact Or.inr (by simp [entKeys, h])
      · rcases ih h with h' | h'
        · exact Or.inl h'
        · exact Or.inr (by simp [entKeys, h'])

theorem nodup_entKeys_assocSetE : ∀ (e : JEntries) (k : String) (v : JVal),
    (entKeys e).Nodup → (entKeys (assocSetE e k v)).Nodup
  | .nil, k, v, _ => by simp [assocSetE, entKeys]
  | .cons k0 v0 rest, k, v, h => by
    have hk0 : k0 ∉ entKeys rest := by
      intro hm
      have := (List.nodup_cons.mp (by simpa [entKeys] using h)).1
      exact this hm
    have hrest : (entKeys rest).Nodup :=
      (List.nodup_cons.mp (by simpa [entKeys] using h)).2
    cases h0 : k0 == k with
    | true =>
      have e0 : k0 = k := by simpa using h0
      subst e0
      simp [assocSetE, entKeys, List.nodup_cons, hk0, hrest]
    | false =>
      have hne : k0 ≠ k := by simpa using h0
      have ihr := nodup_entKeys_assocSetE rest k v hrest
      simp only [assocSetE, h0, Bool.false_eq_true, if_false, entKeys,
        List.nodup_cons]
      refine ⟨?_, ihr⟩
      intro hmem
      rcases mem_entKeys_assocSetE rest k v k0 hmem with h' | h'
      · exact hne h'
      · exact hk0 h'

theorem entLength_assocSetE : ∀ (e : JEntries) (k : String) (v : JVal),
    entLength (assocSetE e k v) ≤ entLength e + 1
  | .nil, k, v => by simp [assocSetE, entLength]
  | .cons k0 v0 rest, k, v => by
    have ih := entLength_assocSetE rest k v
    cases h0 : k0 == k <;> simp only [assocSetE, h0, Bool.false_eq_true, if_false,
      if_true, entLength] <;> omega

theorem substObjGo_get (vars : VarTable) : ∀ (obj : JEntries) (acc : JEntries) (k : String),
    entGet (substObjGo vars acc obj) k =
      match lastHit vars k obj.toList with
      | some w => some w
      | none => entGet acc k
  | .nil, acc, k => by simp [substObjGo, JEntries.toList, lastHit]
  | .cons k0 v0 rest, acc, k => by
    have ih := substObjGo_get vars rest
      (assocSetE acc (substituteVariablesInString k0 vars) (substEntryValue vars v0)) k
    simp only [substObjGo, JEntries.toList, lastHit]
    rw [ih]
    cases hl : lastHit vars k rest.toList with
    | some w => simp
    | none =>
      rw [entGet_assocSetE]
      cases h : substituteVariablesInString k0 vars == k <;> simp [h]

theorem substObjGo_nodup (vars : VarTable) : ∀ (obj : JEntries) (acc : JEntries),
    (entKeys acc).Nodup → (entKeys (substObjGo vars acc obj)).Nodup
  | .nil, acc, h => by simpa [substObjGo] using h
  | .cons k0 v0 rest, acc, h => by
    have ih := substObjGo_nodup vars rest
      (assocSetE acc (substituteVariablesInString k0 vars) (substEntryValue vars v0))
      (nodup_entKeys_assocSetE acc (substituteVariablesInString k0 vars)
        (substEntryValue vars v0) h)
    simpa [substObjGo] using ih

theorem substObjGo_length (vars : VarTable) : ∀ (obj : JEntries) (acc : JEntries),
    entLength (substObjGo vars acc obj) ≤ entLength acc + entLength obj
  | .nil, acc => by simp [substObjGo, entLength]
  | .cons k0 v0 rest, acc => by
    have ih := substObjGo_length vars rest
      (assocSetE acc (substituteVariablesInString k0 vars) (substEntryValue vars v0))
    have hset := entLength_assocSetE acc (substituteVariablesInString k0 vars)
      (substEntryValue vars v0)
    simp only [substObjGo, entLength]
    omega

/-- C10: in the result of `substituteInObject` every key occurs at most once;
the entry found under a key `s` carries the substituted value of the last
input entry whose substituted key equals `s` — so when two distinct input
keys are rewritten to the same string, a single entry remains and its value
comes from the later of the colliding entries in iteration order; the result
therefore never has more entries than the input, and on a concrete collision
it has strictly fewer. -/
theorem substituteInObject_collision (obj : JEntries) (vars : VarTable) (s : String) :
    ((entKeys (substituteInObject obj vars)).count s ≤ 1) ∧
    (entGet (substituteInObject obj vars) s = lastHit vars s obj.toList) ∧
    (entLength (substituteInObject obj vars) ≤ entLength obj) ∧
    entLength (substituteInObject
        (.cons "{{a}}" (.str "1") (.cons "x" (.str "2") .nil)) [("a", "x")]) <
      entLength (JEntries.cons "{{a}}" (.str "1") (.cons "x" (.str "2") .nil)) := by
  refine ⟨?_, ?_, ?_, by decide⟩
  · have hnd := substObjGo_nodup vars obj .nil (by simp [entKeys])
    exact (List.nodup_iff_count_le_one.mp hnd) s
  · have h := substObjGo_get vars obj .nil s
    show entGet (substObjGo vars .nil obj) s = _
    rw [h]
    cases hl : lastHit vars s obj.toList <;> simp [entGet]
  · have h := substObjGo_length vars obj .nil
    simpa [substituteInObject, entLength] using h

end Fetchman
